import Mathlib

/-!
Verification of the scoring and recommendation engine of the
process-metrics scripts (`calculate-process-maturity.py`,
`analyze-command-usage.py`, `analyze-subagent-effectiveness.py`).

Python floats are idealised as rationals (`ℚ`); `round(x, n)` is Python's
banker's rounding (round half to even), modelled at `n = 1` and `n = 2`
decimals.  JSON dictionaries are modelled as insertion-ordered association
lists; a key that may be absent (read through `dict.get` with a default)
becomes an `Option` field.
-/

namespace ProcessMetrics

/-- Round half to even on `ℚ`, the behaviour of Python's builtin `round`
(idealised over exact rationals). -/
def rhe (q : ℚ) : ℤ :=
  if q - ⌊q⌋ < 1/2 then ⌊q⌋
  else if 1/2 < q - ⌊q⌋ then ⌊q⌋ + 1
  else if 2 ∣ ⌊q⌋ then ⌊q⌋ else ⌊q⌋ + 1

/-- Python `round(q, 1)`. -/
def round1 (q : ℚ) : ℚ := (rhe (q * 10) : ℚ) / 10

/-- Python `round(q, 2)`. -/
def round2 (q : ℚ) : ℚ := (rhe (q * 100) : ℚ) / 100

theorem rhe_cases (q : ℚ) :
    (rhe q = ⌊q⌋ ∧ q - ⌊q⌋ ≤ 1/2) ∨ (rhe q = ⌊q⌋ + 1 ∧ 1/2 ≤ q - ⌊q⌋) := by
  unfold rhe
  split
  · rename_i h1
    exact Or.inl ⟨rfl, le_of_lt h1⟩
  · rename_i h1
    push_neg at h1
    split
    · rename_i h2
      exact Or.inr ⟨rfl, le_of_lt h2⟩
    · rename_i h2
      push_neg at h2
      split
      · exact Or.inl ⟨rfl, h2⟩
      · exact Or.inr ⟨rfl, h1⟩

theorem le_rhe_of_le {z : ℤ} {q : ℚ} (h : (z : ℚ) ≤ q) : z ≤ rhe q := by
  have hfl : z ≤ ⌊q⌋ := Int.le_floor.mpr h
  rcases rhe_cases q with ⟨hc, _⟩ | ⟨hc, _⟩ <;> omega

theorem rhe_le_of_le {z : ℤ} {q : ℚ} (h : q ≤ (z : ℚ)) : rhe q ≤ z := by
  have hfl : ⌊q⌋ ≤ z := by simpa using Int.floor_le_floor h
  rcases rhe_cases q with ⟨hc, _⟩ | ⟨hc, hge⟩
  · omega
  · rw [hc]
    by_contra hcon
    push_neg at hcon
    have hz : ⌊q⌋ = z := by omega
    rw [hz] at hge
    have hq : (z : ℚ) + 1/2 ≤ q := by linarith
    linarith

theorem rhe_nonneg {q : ℚ} (h : 0 ≤ q) : 0 ≤ rhe q :=
  le_rhe_of_le (by exact_mod_cast h)

theorem rhe_intCast (z : ℤ) : rhe (z : ℚ) = z :=
  le_antisymm (rhe_le_of_le le_rfl) (le_rhe_of_le le_rfl)

/-- Evaluation rule for `rhe` when the value sits strictly below the
midpoint of its floor interval. -/
theorem rhe_eq_low {q : ℚ} {z : ℤ} (h1 : (z : ℚ) ≤ q) (h2 : q < z + 1)
    (h3 : q - z < 1/2) : rhe q = z := by
  have hz : ⌊q⌋ = z := Int.floor_eq_iff.mpr ⟨h1, h2⟩
  rcases rhe_cases q with ⟨hc, _⟩ | ⟨hc, hge⟩
  · rw [hc, hz]
  · rw [hz] at hge
    linarith

/-- Evaluation rule for `rhe` when the value sits strictly above the
midpoint of its floor interval. -/
theorem rhe_eq_high {q : ℚ} {z : ℤ} (h1 : (z : ℚ) ≤ q) (h2 : q < z + 1)
    (h3 : 1/2 < q - z) : rhe q = z + 1 := by
  have hz : ⌊q⌋ = z := Int.floor_eq_iff.mpr ⟨h1, h2⟩
  rcases rhe_cases q with ⟨hc, hle⟩ | ⟨hc, _⟩
  · rw [hz] at hle
    linarith
  · rw [hc, hz]

/-- A value that is an exact multiple of `1/100` is left unchanged by
`round2`. -/
theorem round2_eq_self {q : ℚ} {z : ℤ} (h : q * 100 = (z : ℚ)) : round2 q = q := by
  unfold round2
  rw [h, rhe_intCast]
  field_simp at h ⊢
  linarith

theorem round1_nonneg {q : ℚ} (h : 0 ≤ q) : 0 ≤ round1 q := by
  unfold round1
  have : (0 : ℤ) ≤ rhe (q * 10) := rhe_nonneg (by linarith)
  positivity

theorem round1_le_ten {q : ℚ} (h : q ≤ 10) : round1 q ≤ 10 := by
  unfold round1
  have h100 : rhe (q * 10) ≤ (100 : ℤ) := rhe_le_of_le (by push_cast; linarith)
  have : ((rhe (q * 10) : ℤ) : ℚ) ≤ 100 := by exact_mod_cast h100
  linarith

namespace Maturity

/-- Embedding of `score_dimension` from `calculate-process-maturity.py`:
scan the `(upperBound, score)` pairs in order and return the score of the
first pair with `value ≤ upperBound`; when no pair matches, fall through to
`thresholds[-1][1]`, the last pair's score.  `none` models the Python
`IndexError` that `thresholds[-1]` raises on an empty table. -/
def score_dimension (value : ℚ) (thresholds : List (ℚ × ℚ)) : Option ℚ :=
  match thresholds.find? (fun p => decide (value ≤ p.1)) with
  | some p => some p.2
  | none => thresholds.getLast?.map Prod.snd

theorem score_dimension_nil (v : ℚ) : score_dimension v [] = none := rfl

theorem score_dimension_singleton (v : ℚ) (x : ℚ × ℚ) :
    score_dimension v [x] = some x.2 := by
  by_cases h : v ≤ x.1 <;> simp [score_dimension, List.find?, h]

theorem score_dimension_cons_cons (v : ℚ) (x y : ℚ × ℚ) (l : List (ℚ × ℚ)) :
    score_dimension v (x :: y :: l) =
      if v ≤ x.1 then some x.2 else score_dimension v (y :: l) := by
  by_cases h : v ≤ x.1 <;> simp [score_dimension, List.find?, h]

theorem score_dimension_isSome {v : ℚ} {t : List (ℚ × ℚ)} (h : t ≠ []) :
    (score_dimension v t).isSome = true := by
  induction t with
  | nil => exact absurd rfl h
  | cons x l ih =>
    cases l with
    | nil => simp [score_dimension_singleton]
    | cons y l2 =>
      rw [score_dimension_cons_cons]
      split
      · rfl
      · exact ih (by simp)

/-- The result of `score_dimension` is always the score of some table
entry. -/
theorem score_dimension_mem {v s : ℚ} {t : List (ℚ × ℚ)}
    (h : score_dimension v t = some s) : ∃ p ∈ t, p.2 = s := by
  induction t with
  | nil => simp [score_dimension_nil] at h
  | cons x l ih =>
    cases l with
    | nil =>
      rw [score_dimension_singleton] at h
      exact ⟨x, by simp, Option.some.inj h⟩
    | cons y l2 =>
      rw [score_dimension_cons_cons] at h
      split at h
      · exact ⟨x, by simp, Option.some.inj h⟩
      · obtain ⟨p, hp, hps⟩ := ih h
        exact ⟨p, by simp [hp], hps⟩

/-- If every entry before `p` has its bound strictly below `v` and `v` is
within `p`'s bound, the scan stops at `p`. -/
theorem score_dimension_of_first {v : ℚ} :
    ∀ (pre : List (ℚ × ℚ)) (p : ℚ × ℚ) (post : List (ℚ × ℚ)),
      (∀ q ∈ pre, q.1 < v) → v ≤ p.1 →
      score_dimension v (pre ++ p :: post) = some p.2 := by
  intro pre
  induction pre with
  | nil =>
    intro p post _ hp
    cases post with
    | nil => simp [score_dimension_singleton]
    | cons y l => simp [score_dimension_cons_cons, hp]
  | cons x pre2 ih =>
    intro p post hpre hp
    have hx : x.1 < v := hpre x (by simp)
    have hne2 : pre2 ++ p :: post ≠ [] := by simp
    rcases heq : pre2 ++ p :: post with _ | ⟨y, l⟩
    · exact absurd heq hne2
    · have : score_dimension v ((x :: pre2) ++ p :: post) =
          score_dimension v (pre2 ++ p :: post) := by
        rw [List.cons_append, heq, score_dimension_cons_cons, if_neg (by linarith)]
      rw [this]
      exact ih p post (fun q hq => hpre q (by simp [hq])) hp

/-- When the value is above every bound the scan falls through to the last
entry. -/
theorem score_dimension_of_above {v : ℚ} :
    ∀ (t : List (ℚ × ℚ)) (hne : t ≠ []), (∀ p ∈ t, p.1 < v) →
      score_dimension v t = some (t.getLast hne).2 := by
  intro t
  induction t with
  | nil => intro hne; exact absurd rfl hne
  | cons x l ih =>
    intro hne hall
    cases l with
    | nil => simp [score_dimension_singleton]
    | cons y l2 =>
      have hx : x.1 < v := hall x (by simp)
      rw [score_dimension_cons_cons, if_neg (by linarith)]
      rw [ih (by simp) (fun p hp => hall p (by simp [hp]))]
      simp [List.getLast]

/-- Claim C1: for every non-empty threshold table (bounds ascending) and
every raw value `v` — including values below every bound or above the
largest — `score_dimension` returns a value (never raises), returns the
score of the first pair whose `upperBound` is `≥ v`, and returns the last
pair's score when `v` exceeds every bound. -/
theorem score_dimension_first_match_and_clamp (v : ℚ) (t : List (ℚ × ℚ))
    (hne : t ≠ []) (hasc : t.Pairwise (fun p q => p.1 < q.1)) :
    (score_dimension v t).isSome = true ∧
    (∀ pre p post, t = pre ++ p :: post → (∀ q ∈ pre, q.1 < v) → v ≤ p.1 →
      score_dimension v t = some p.2) ∧
    ((∀ p ∈ t, p.1 < v) → score_dimension v t = some (t.getLast hne).2) :=
  ⟨score_dimension_isSome hne,
   fun pre p post ht hpre hp => by
     rw [ht]
     exact score_dimension_of_first pre p post hpre hp,
   score_dimension_of_above t hne⟩

/-- Witness for C1 at the table `[(1/5, 2), (2/5, 4)]` with `v = 3/2`
above every bound: the ceiling clamp produces the last score, `4`. -/
theorem score_dimension_first_match_and_clamp_witness :
    score_dimension (3/2) [((1:ℚ)/5, (2:ℚ)), (2/5, 4)] = some 4 := by
  have h := score_dimension_first_match_and_clamp (3/2)
    [((1:ℚ)/5, (2:ℚ)), (2/5, 4)] (by simp)
    (by simp [List.pairwise_cons]; norm_num)
  have h3 := h.2.2 (by
    intro p hp
    simp only [List.mem_cons, List.mem_singleton] at hp
    rcases hp with rfl | rfl | h
    · norm_num
    · norm_num
    · simp at h)
  simpa using h3

/-- Monotonicity core: with scores nondecreasing along the table, a larger
raw value can only reach a later (hence not smaller) score. -/
theorem score_dimension_mono_aux :
    ∀ (t : List (ℚ × ℚ)), t.Pairwise (fun p q => p.2 ≤ q.2) →
      ∀ {v1 v2 s1 s2 : ℚ}, v1 ≤ v2 →
        score_dimension v1 t = some s1 → score_dimension v2 t = some s2 →
        s1 ≤ s2 := by
  intro t
  induction t with
  | nil => intro _ v1 v2 s1 s2 _ h1 _; simp [score_dimension_nil] at h1
  | cons x l ih =>
    intro hmono v1 v2 s1 s2 hv h1 h2
    cases l with
    | nil =>
      rw [score_dimension_singleton] at h1 h2
      rw [← Option.some.inj h1, ← Option.some.inj h2]
    | cons y l2 =>
      rw [score_dimension_cons_cons] at h1 h2
      by_cases hx1 : v1 ≤ x.1
      · rw [if_pos hx1] at h1
        by_cases hx2 : v2 ≤ x.1
        · rw [if_pos hx2] at h2
          rw [← Option.some.inj h1, ← Option.some.inj h2]
        · rw [if_neg hx2] at h2
          obtain ⟨p, hp, hps⟩ := score_dimension_mem h2
          have hle : x.2 ≤ p.2 := (List.pairwise_cons.mp hmono).1 p hp
          rw [← Option.some.inj h1, ← hps]
          exact hle
      · have hx2 : ¬ v2 ≤ x.1 := fun h => hx1 (le_trans hv h)
        rw [if_neg hx1] at h1
        rw [if_neg hx2] at h2
        exact ih (List.pairwise_cons.mp hmono).2 hv h1 h2

/-- Claim C5: for every valid threshold table (bounds strictly ascending,
scores nondecreasing) and raw values `v1 ≤ v2`, the score for `v1` is at
most the score for `v2`. -/
theorem score_dimension_monotone (t : List (ℚ × ℚ)) (hne : t ≠ [])
    (hasc : t.Pairwise (fun p q => p.1 < q.1))
    (hmono : t.Pairwise (fun p q => p.2 ≤ q.2))
    {v1 v2 s1 s2 : ℚ} (hv : v1 ≤ v2)
    (h1 : score_dimension v1 t = some s1)
    (h2 : score_dimension v2 t = some s2) : s1 ≤ s2 :=
  score_dimension_mono_aux t hmono hv h1 h2

/-- Witness for C5 at the table `[(1/5, 2), (2/5, 4)]`, `v1 = 1/10`,
`v2 = 3/10`. -/
theorem score_dimension_monotone_witness :
    score_dimension (1/10) [((1:ℚ)/5, (2:ℚ)), (2/5, 4)] = some 2 ∧
    score_dimension (3/10) [((1:ℚ)/5, (2:ℚ)), (2/5, 4)] = some 4 ∧
    (2 : ℚ) ≤ 4 := by
  have h1 : score_dimension (1/10) [((1:ℚ)/5, (2:ℚ)), (2/5, 4)] = some 2 := by
    rw [score_dimension_cons_cons, if_pos (by norm_num)]
  have h2 : score_dimension (3/10) [((1:ℚ)/5, (2:ℚ)), (2/5, 4)] = some 4 := by
    rw [score_dimension_cons_cons, if_neg (by norm_num), score_dimension_singleton]
  refine ⟨h1, h2, ?_⟩
  exact score_dimension_monotone [((1:ℚ)/5, (2:ℚ)), (2/5, 4)] (by simp)
    (by simp [List.pairwise_cons]; norm_num)
    (by simp [List.pairwise_cons]; norm_num)
    (by norm_num) h1 h2

/-- Embedding of `get_maturity_level` from `calculate-process-maturity.py`:
the if/elif chain mapping the overall score to a level label and a
description. -/
def get_maturity_level (score : ℚ) : String × String :=
  if score < 2 then ("Critical", "Immediate intervention needed")
  else if score < 4 then ("Poor", "Significant gaps, high risk")
  else if score < 6 then ("Fair", "Basic processes in place")
  else if score < 8 then ("Good", "Solid foundation, room to grow")
  else ("Excellent", "Mature, optimized system")

/-- Claim C3: on `[0, 10]` the maturity level is Critical iff `x < 2`,
Poor iff `2 ≤ x < 4`, Fair iff `4 ≤ x < 6`, Good iff `6 ≤ x < 8`, and
Excellent iff `x ≥ 8`; a boundary score belongs to the higher band
(`2` maps to Poor, not Critical). -/
theorem get_maturity_level_bands (x : ℚ) (h0 : 0 ≤ x) (h10 : x ≤ 10) :
    ((get_maturity_level x).1 = "Critical" ↔ x < 2) ∧
    ((get_maturity_level x).1 = "Poor" ↔ 2 ≤ x ∧ x < 4) ∧
    ((get_maturity_level x).1 = "Fair" ↔ 4 ≤ x ∧ x < 6) ∧
    ((get_maturity_level x).1 = "Good" ↔ 6 ≤ x ∧ x < 8) ∧
    ((get_maturity_level x).1 = "Excellent" ↔ 8 ≤ x) := by
  unfold get_maturity_level
  split_ifs with h1 h2 h3 h4
  · -- score < 2 : Critical
    refine ⟨⟨fun _ => h1, fun _ => rfl⟩, ?_, ?_, ?_, ?_⟩ <;>
      exact ⟨fun h => absurd h (by decide),
             fun h => by
               exfalso
               first
                 | (obtain ⟨ha, hb⟩ := h; linarith)
                 | linarith⟩
  · -- 2 ≤ score < 4 : Poor
    push_neg at h1
    refine ⟨⟨fun h => absurd h (by decide), fun h => by exfalso; linarith⟩,
            ⟨fun _ => ⟨h1, h2⟩, fun _ => rfl⟩, ?_, ?_, ?_⟩ <;>
      exact ⟨fun h => absurd h (by decide),
             fun h => by
               exfalso
               first
                 | (obtain ⟨ha, hb⟩ := h; linarith)
                 | linarith⟩
  · -- 4 ≤ score < 6 : Fair
    push_neg at h1 h2
    refine ⟨⟨fun h => absurd h (by decide), fun h => by exfalso; linarith⟩,
            ⟨fun h => absurd h (by decide), fun h => by exfalso; rcases h with ⟨_, hb⟩; linarith⟩,
            ⟨fun _ => ⟨h2, h3⟩, fun _ => rfl⟩, ?_, ?_⟩ <;>
      exact ⟨fun h => absurd h (by decide),
             fun h => by
               exfalso
               first
                 | (obtain ⟨ha, hb⟩ := h; linarith)
                 | linarith⟩
  · -- 6 ≤ score < 8 : Good
    push_neg at h1 h2 h3
    refine ⟨⟨fun h => absurd h (by decide), fun h => by exfalso; linarith⟩,
            ⟨fun h => absurd h (by decide), fun h => by exfalso; rcases h with ⟨_, hb⟩; linarith⟩,
            ⟨fun h => absurd h (by decide), fun h => by exfalso; rcases h with ⟨_, hb⟩; linarith⟩,
            ⟨fun _ => ⟨h3, h4⟩, fun _ => rfl⟩,
            ⟨fun h => absurd h (by decide), fun h => by exfalso; linarith⟩⟩
  · -- 8 ≤ score : Excellent
    push_neg at h1 h2 h3 h4
    refine ⟨⟨fun h => absurd h (by decide), fun h => by exfalso; linarith⟩,
            ⟨fun h => absurd h (by decide), fun h => by exfalso; rcases h with ⟨_, hb⟩; linarith⟩,
            ⟨fun h => absurd h (by decide), fun h => by exfalso; rcases h with ⟨_, hb⟩; linarith⟩,
            ⟨fun h => absurd h (by decide), fun h => by exfalso; rcases h with ⟨_, hb⟩; linarith⟩,
            ⟨fun _ => h4, fun _ => rfl⟩⟩

/-- Witness for C3 at the boundary `x = 2`: the level is Poor, not
Critical. -/
theorem get_maturity_level_bands_witness :
    (get_maturity_level 2).1 = "Poor" :=
  (get_maturity_level_bands 2 (by norm_num) (by norm_num)).2.1.mpr
    ⟨le_refl 2, by norm_num⟩

/-- One weighted dimension of `calculate_maturity`: its weight and its
threshold table (the `getValue` data collectors are external I/O; the raw
values they return enter the aggregation as inputs). -/
structure DimSpec where
  weight : ℚ
  thresholds : List (ℚ × ℚ)

/-- One iteration of the aggregation loop in `calculate_maturity`:
`score = score_dimension(value, thresholds); weighted = score * weight`.
On the script's tables `score_dimension` always returns a value; `getD 0`
is only reached for an empty table, where Python would raise instead. -/
def dim_weighted (dv : DimSpec × ℚ) : ℚ :=
  ((score_dimension dv.2 dv.1.thresholds).getD 0) * dv.1.weight

/-- The running `total_score` accumulator of `calculate_maturity`. -/
def total_score (dims : List DimSpec) (values : List ℚ) : ℚ :=
  (dims.zip values).foldl (fun acc dv => acc + dim_weighted dv) 0

/-- `overallScore` as computed by `calculate_maturity`:
`round(total_score, 1)`. -/
def overallScore (dims : List DimSpec) (values : List ℚ) : ℚ :=
  round1 (total_score dims values)

/-- The fixed dimension table of `calculate_maturity` (weights 25%, 20%,
15%, 15%, 15%, 10% with the script's threshold tables). -/
def dimensions : List DimSpec :=
  [⟨1/4, [(1/5, 2), (2/5, 4), (3/5, 6), (4/5, 8), (1, 10)]⟩,
   ⟨1/5, [(1/5, 2), (2/5, 4), (3/5, 6), (4/5, 8), (1, 10)]⟩,
   ⟨3/20, [(2/5, 2), (3/5, 4), (3/4, 6), (9/10, 8), (1, 10)]⟩,
   ⟨3/20, [(3/5, 2), (7/10, 4), (4/5, 6), (9/10, 8), (1, 10)]⟩,
   ⟨3/20, [(1/5, 2), (2/5, 4), (3/5, 6), (4/5, 8), (1, 10)]⟩,
   ⟨1/10, [(1/5, 2), (2/5, 4), (3/5, 6), (4/5, 8), (1, 10)]⟩]

theorem foldl_add_eq_sum {α : Type} (f : α → ℚ) :
    ∀ (l : List α) (a : ℚ), l.foldl (fun acc x => acc + f x) a = a + (l.map f).sum := by
  intro l
  induction l with
  | nil => intro a; simp
  | cons x xs ih =>
    intro a
    simp only [List.foldl_cons, List.map_cons, List.sum_cons]
    rw [ih]
    ring

/-- Claim C4: the aggregator's overall score is the weighted sum of the
dimension scores rounded to one decimal, and lies in `[0, 10]` whenever
every table score lies in `[0, 10]` and the (nonnegative) weights sum
to 1. -/
theorem overallScore_weighted_sum_and_bounds (dims : List DimSpec) (values : List ℚ)
    (hlen : dims.length = values.length)
    (hsc : ∀ d ∈ dims, ∀ p ∈ d.thresholds, 0 ≤ p.2 ∧ p.2 ≤ 10)
    (hw : ∀ d ∈ dims, 0 ≤ d.weight)
    (hsum : (dims.map DimSpec.weight).sum = 1) :
    overallScore dims values =
      round1 (((dims.zip values).map
        (fun dv => ((score_dimension dv.2 dv.1.thresholds).getD 0) * dv.1.weight)).sum) ∧
    0 ≤ overallScore dims values ∧ overallScore dims values ≤ 10 := by
  have heq : total_score dims values = ((dims.zip values).map dim_weighted).sum := by
    unfold total_score
    rw [foldl_add_eq_sum dim_weighted]
    ring
  have hterm : ∀ dv ∈ dims.zip values,
      0 ≤ dim_weighted dv ∧ dim_weighted dv ≤ 10 * dv.1.weight := by
    intro dv hdv
    have hd : dv.1 ∈ dims := by
      rcases dv with ⟨d, v⟩
      exact (List.of_mem_zip hdv).1
    have hs : 0 ≤ (score_dimension dv.2 dv.1.thresholds).getD 0 ∧
        (score_dimension dv.2 dv.1.thresholds).getD 0 ≤ 10 := by
      cases hopt : score_dimension dv.2 dv.1.thresholds with
      | none => simp
      | some sc =>
        obtain ⟨p, hp, hps⟩ := score_dimension_mem hopt
        have := hsc dv.1 hd p hp
        simp only [Option.getD_some]
        rw [← hps]
        exact this
    have hw1 := hw dv.1 hd
    exact ⟨mul_nonneg hs.1 hw1, mul_le_mul_of_nonneg_right hs.2 hw1⟩
  have hlow : 0 ≤ total_score dims values := by
    rw [heq]
    apply List.sum_nonneg
    intro a ha
    obtain ⟨dv, hdv, rfl⟩ := List.mem_map.mp ha
    exact (hterm dv hdv).1
  have hhigh : total_score dims values ≤ 10 := by
    rw [heq]
    have h1 : ((dims.zip values).map dim_weighted).sum ≤
        ((dims.zip values).map (fun dv => 10 * dv.1.weight)).sum := by
      apply List.sum_le_sum
      intro dv hdv
      exact (hterm dv hdv).2
    have h2 : ((dims.zip values).map (fun dv => 10 * dv.1.weight)).sum =
        10 * ((dims.zip values).map (fun dv => dv.1.weight)).sum := by
      rw [List.sum_map_mul_left]
    have h3 : ((dims.zip values).map (fun dv => dv.1.weight)).sum =
        (dims.map DimSpec.weight).sum := by
      have hfst : (dims.zip values).map Prod.fst = dims :=
        List.map_fst_zip dims values (le_of_eq hlen)
      calc ((dims.zip values).map (fun dv => dv.1.weight)).sum
      _ = (((dims.zip values).map Prod.fst).map DimSpec.weight).sum := by
          rw [List.map_map]; rfl
      _ = (dims.map DimSpec.weight).sum := by rw [hfst]
    rw [h2, h3, hsum] at h1
    linarith
  refine ⟨by rw [overallScore, heq]; rfl, round1_nonneg hlow, round1_le_ten hhigh⟩

/-- Witness for C4 with two dimensions of weight `1/2` and raw values `0`:
the overall score is within `[0, 10]`. -/
theorem overallScore_weighted_sum_and_bounds_witness :
    0 ≤ overallScore [⟨1/2, [(1, 10)]⟩, ⟨1/2, [(1, 0)]⟩] [0, 0] ∧
    overallScore [⟨1/2, [(1, 10)]⟩, ⟨1/2, [(1, 0)]⟩] [0, 0] ≤ 10 :=
  (overallScore_weighted_sum_and_bounds
    [⟨1/2, [(1, 10)]⟩, ⟨1/2, [(1, 0)]⟩] [0, 0]
    (by simp)
    (by
      intro d hd
      simp only [List.mem_cons, List.mem_singleton] at hd
      rcases hd with rfl | rfl | h
      · intro p hp
        simp only [List.mem_singleton] at hp
        subst hp
        norm_num
      · intro p hp
        simp only [List.mem_singleton] at hp
        subst hp
        norm_num
      · simp at h)
    (by
      intro d hd
      simp only [List.mem_cons, List.mem_singleton] at hd
      rcases hd with rfl | rfl | h
      · norm_num
      · norm_num
      · simp at h)
    (by norm_num)).2

end Maturity

/-- Python's `s.startswith(pre)` on the character lists of the two
strings (`String.startsWith` itself does not reduce in the kernel). -/
def charsStart : List Char → List Char → Bool
  | [], _ => true
  | _ :: _, [] => false
  | c :: cs, d :: ds => decide (c = d) && charsStart cs ds

/-- `strStarts s pre` is Python's `s.startswith(pre)`. -/
def strStarts (s pre : String) : Bool := charsStart pre.data s.data

/-- Association-list lookup with the first binding winning, the behaviour
of a JSON-backed Python dict (`d[k]` / `d.get(k)`). -/
def lookupKey {β : Type} (k : String) : List (String × β) → Option β
  | [] => none
  | p :: rest => if p.1 = k then some p.2 else lookupKey k rest

namespace CommandUsage

/-- One per-command record of `command-usage.json`.  `lastUsed` and
`avgSuccessRate` model keys read through `.get` with a default, so absence
is observable; `recommendationsMade` and `adoptionRate` are only ever read
with default `0`, so a missing key is modelled as `0` itself. -/
structure CmdData where
  invocations : ℕ
  lastUsed : Option String
  avgSuccessRate : Option ℚ
  recommendationsMade : ℕ
  adoptionRate : ℚ

/-- The persisted usage snapshot handled by `update_command_usage`
(`insights`/`recommendations` are recomputed each analysis run and are
modelled as function results instead of stored state). -/
structure UsageData where
  commands : List (String × CmdData)
  trackingPeriod : Option (String × String × ℕ)

/-- A `RedundancyCluster` entry produced by `find_redundant_commands`. -/
structure Cluster where
  commands : List String
  reason : String
  suggestion : String

/-- The `insights` block computed by `analyze_usage_patterns`
(`chainingOpportunities`/`confusionPatterns` carry no data the analysis
consumes and are elided). -/
structure Insights where
  mostUsedCommands : List String
  leastUsedCommands : List String
  redundantCommands : List Cluster

/-- One recommendation record from `generate_recommendations`; entries
without a `commands` key are modelled with `[]`. -/
structure Recommendation where
  priority : String
  category : String
  issue : String
  suggestion : String
  commands : List String

/-- Stable descending insertion by invocation count: an element is placed
before the first element whose count does not exceed its own, which keeps
the original order among equal counts — the behaviour of Python's stable
`list.sort(key=lambda x: x[1], reverse=True)`. -/
def insertDesc (x : String × ℕ) : List (String × ℕ) → List (String × ℕ)
  | [] => [x]
  | y :: ys => if y.2 ≤ x.2 then x :: y :: ys else y :: insertDesc x ys

def sortDesc : List (String × ℕ) → List (String × ℕ)
  | [] => []
  | x :: xs => insertDesc x (sortDesc xs)

/-- The `usage_counts` list of `analyze_usage_patterns`: `(cmd,
invocations)` pairs sorted by count descending (stable). -/
def usage_counts (commands : List (String × CmdData)) : List (String × ℕ) :=
  sortDesc (commands.map (fun c => (c.1, c.2.invocations)))

/-- `most_used`: the first five sorted entries, keeping only those with a
positive count. -/
def most_used (commands : List (String × CmdData)) : List String :=
  (((usage_counts commands).take 5).filter (fun c => decide (0 < c.2))).map Prod.fst

/-- `least_used`: every entry with a zero count. -/
def least_used (commands : List (String × CmdData)) : List String :=
  ((usage_counts commands).filter (fun c => decide (c.2 = 0))).map Prod.fst

/-- Embedding of `find_redundant_commands`: the `/local-*` family (each
member under 5 invocations, at least 2 members) and the `/process-*`
family (each member under 3 invocations, at least 3 members). -/
def find_redundant_commands (commands : List (String × CmdData)) : List Cluster :=
  let local_commands := commands.filter
    (fun c => strStarts c.1 "/local-" && decide (c.2.invocations < 5))
  let l1 : List Cluster :=
    if 2 ≤ local_commands.length then
      [⟨local_commands.map Prod.fst,
        "Multiple /local-* commands with low usage, consider consolidation",
        "Merge into /delegate-auto with auto-routing"⟩]
    else []
  let process_commands := commands.filter
    (fun c => strStarts c.1 "/process-" && decide (c.2.invocations < 3))
  let l2 : List Cluster :=
    if 3 ≤ process_commands.length then
      [⟨process_commands.map Prod.fst,
        "Multiple specialized process commands rarely used",
        "Consider consolidating related functions"⟩]
    else []
  l1 ++ l2

/-- Embedding of `analyze_usage_patterns` (its `insights` output). -/
def analyze_usage_patterns (commands : List (String × CmdData)) : Insights :=
  ⟨most_used commands, least_used commands, find_redundant_commands commands⟩

/-- The cleanup recommendation block of `generate_recommendations`
(emitted when `leastUsedCommands` is non-empty, priority `low`). -/
def cleanup_recs (insights : Insights) : List Recommendation :=
  if insights.leastUsedCommands.isEmpty then []
  else
    [⟨"low", "cleanup",
      toString insights.leastUsedCommands.length ++ " commands never used in 30 days",
      "Review for deprecation or better promotion",
      insights.leastUsedCommands⟩]

/-- The consolidation block: one `medium` recommendation per redundancy
cluster. -/
def consolidation_recs (insights : Insights) : List Recommendation :=
  insights.redundantCommands.map
    (fun r => ⟨"medium", "consolidation", r.reason, r.suggestion, r.commands⟩)

/-- The adoption block: a single `high` recommendation when `/route` has
made recommendations and its adoption rate is below 30% (the percentage
interpolated into the Python message text is elided). -/
def adoption_recs (commands : List (String × CmdData)) : List Recommendation :=
  match lookupKey "/route" commands with
  | none => []
  | some d =>
    if 0 < d.recommendationsMade then
      if d.adoptionRate < 3/10 then
        [⟨"high", "adoption",
          "/route recommendations only followed a fraction of the time",
          "Improve specificity of routing advice or reduce noise", []⟩]
      else []
    else []

/-- The promotion block: a `medium` recommendation per command with fewer
than 5 invocations and a success rate above 80%. -/
def promotion_recs (commands : List (String × CmdData)) : List Recommendation :=
  (commands.filter
    (fun c => decide (c.2.invocations < 5) && decide ((4:ℚ)/5 < c.2.avgSuccessRate.getD 0))).map
    (fun c => ⟨"medium", "promotion",
      c.1 ++ " highly successful but rarely used",
      "Better documentation or automatic suggestions", []⟩)

/-- Embedding of `generate_recommendations`: the Python function appends
the four signal blocks to one list in this fixed order. -/
def generate_recommendations (commands : List (String × CmdData))
    (insights : Insights) : List Recommendation :=
  cleanup_recs insights ++ consolidation_recs insights ++
    adoption_recs commands ++ promotion_recs commands

/-- The recommendation list produced by one `analyze_command_usage` run:
`analyze_usage_patterns` followed by `generate_recommendations` (the
timestamp stamping and JSON save are I/O outside the engine). -/
def analyze_command_usage (commands : List (String × CmdData)) : List Recommendation :=
  generate_recommendations commands (analyze_usage_patterns commands)

/-- The fresh record created by `update_command_usage` for an unseen
command: `{"invocations": 0, "lastUsed": None, "avgSuccessRate": 0.0}`. -/
def freshCmd : CmdData := ⟨0, none, some 0, 0, 0⟩

/-- The in-place mutation `update_command_usage` performs on the named
command's record: bump `invocations`, stamp `lastUsed`, and fold the
outcome into `avgSuccessRate` (read through `.get` with default `0.5`)
with 2-decimal rounding. -/
def updateEntry (now : String) (success : Bool) (d : CmdData) : CmdData :=
  let inv := d.invocations + 1
  let current := d.avgSuccessRate.getD (1/2)
  let new_rate := round2 ((current * ((inv : ℚ) - 1) + (if success then 1 else 0)) / inv)
  ⟨inv, some now, some new_rate, d.recommendationsMade, d.adoptionRate⟩

/-- Embedding of `update_command_usage` (the load/save around it is I/O):
insert a fresh record if the command is unseen, update that command's
record, and refresh the tracking period. -/
def update_command_usage (now command : String) (success : Bool)
    (data : UsageData) : UsageData :=
  let cmds0 := if (lookupKey command data.commands).isSome then data.commands
               else data.commands ++ [(command, freshCmd)]
  let cmds1 := cmds0.map (fun p => if p.1 = command then (p.1, updateEntry now success p.2) else p)
  let tp := match data.trackingPeriod with
    | none => some (now, now, 0)
    | some (s, _, d) => some (s, now, d)
  ⟨cmds1, tp⟩

/-- Recording a sequence of outcomes one call at a time. -/
def record_outcomes (now command : String) (outcomes : List Bool)
    (data : UsageData) : UsageData :=
  outcomes.foldl (fun d s => update_command_usage now command s d) data

/-- One step of the stored-rate recurrence for an entity currently at rate
`r` with `k` recorded invocations. -/
def rate_step (r : ℚ) (k : ℕ) (s : Bool) : ℚ :=
  round2 ((r * k + (if s then 1 else 0)) / (k + 1))

/-- The stored rate after a run of outcomes, starting from rate `r` with
`k` recorded invocations. -/
def rates_from (r : ℚ) (k : ℕ) : List Bool → ℚ
  | [] => r
  | s :: rest => rates_from (rate_step r k s) (k + 1) rest

theorem lookupKey_append {β : Type} (k : String) (l1 l2 : List (String × β)) :
    lookupKey k (l1 ++ l2) = match lookupKey k l1 with
      | some v => some v
      | none => lookupKey k l2 := by
  induction l1 with
  | nil => simp [lookupKey]
  | cons p rest ih =>
    by_cases hp : p.1 = k <;> simp [lookupKey, hp, ih]

theorem lookupKey_map_update {β : Type} (k k' : String) (f : β → β) :
    ∀ (l : List (String × β)),
      lookupKey k' (l.map (fun p => if p.1 = k then (p.1, f p.2) else p)) =
        if k' = k then (lookupKey k' l).map f else lookupKey k' l := by
  intro l
  induction l with
  | nil => by_cases h : k' = k <;> simp [lookupKey, h]
  | cons p rest ih =>
    by_cases hk : k' = k
    · subst hk
      by_cases hp : p.1 = k' <;> simp [lookupKey, hp, ih]
    · by_cases hp : p.1 = k
      · have hpk : ¬ p.1 = k' := by rw [hp]; exact fun h => hk h.symm
        have hk2 : ¬ k = k' := fun h => hk h.symm
        simp [lookupKey, hp, hpk, hk, hk2, ih]
      · by_cases hpk : p.1 = k'
        · simp [lookupKey, hp, hpk, hk]
        · simp [lookupKey, hp, hpk, hk, ih]

theorem update_lookup_present {command : String} {data : UsageData} {d : CmdData}
    (now : String) (success : Bool)
    (h : lookupKey command data.commands = some d) :
    lookupKey command (update_command_usage now command success data).commands =
      some (updateEntry now success d) := by
  unfold update_command_usage
  simp only [h, Option.isSome_some, if_true]
  rw [lookupKey_map_update]
  simp [h]

theorem update_lookup_absent {command : String} {data : UsageData}
    (now : String) (success : Bool)
    (h : lookupKey command data.commands = none) :
    lookupKey command (update_command_usage now command success data).commands =
      some (updateEntry now success freshCmd) := by
  unfold update_command_usage
  simp only [h, Option.isSome_none, Bool.false_eq_true, if_false]
  rw [lookupKey_map_update]
  rw [if_pos rfl, lookupKey_append, h]
  simp [lookupKey]

theorem update_lookup_other {now command : String} {success : Bool}
    {data : UsageData} {c : String} (hne : c ≠ command) :
    lookupKey c (update_command_usage now command success data).commands =
      lookupKey c data.commands := by
  unfold update_command_usage
  by_cases hs : (lookupKey command data.commands).isSome
  · simp only [hs, if_true]
    rw [lookupKey_map_update, if_neg hne]
  · have hs2 : (lookupKey command data.commands).isSome = false := by
      simpa using hs
    simp only [hs2, Bool.false_eq_true, if_false]
    rw [lookupKey_map_update, if_neg hne, lookupKey_append]
    have h3 : ¬ command = c := fun h => hne h.symm
    have h2 : lookupKey c [(command, freshCmd)] = none := by
      simp [lookupKey, h3]
    rw [h2]
    cases lookupKey c data.commands <;> rfl

/-- Claim C10: one `update_command_usage` call leaves every other
command's record untouched and bumps the named command's invocation count
by exactly one (from `0` when the command was unseen). -/
theorem update_command_usage_frame (now command : String) (success : Bool)
    (data : UsageData) :
    (∀ c, c ≠ command →
      lookupKey c (update_command_usage now command success data).commands =
        lookupKey c data.commands) ∧
    ∃ d, lookupKey command (update_command_usage now command success data).commands = some d ∧
      d.invocations = (match lookupKey command data.commands with
        | some d0 => d0.invocations
        | none => 0) + 1 := by
  refine ⟨fun c hc => update_lookup_other hc, ?_⟩
  cases hl : lookupKey command data.commands with
  | some d0 => exact ⟨updateEntry now success d0, update_lookup_present now success hl, rfl⟩
  | none => exact ⟨updateEntry now success freshCmd, update_lookup_absent now success hl, rfl⟩

/-- Witness for C10: updating `/b` on a store holding only `/a` leaves
`/a` unchanged and stores `/b` with one invocation. -/
theorem update_command_usage_frame_witness :
    (lookupKey "/a" (update_command_usage "t" "/b" true
        ⟨[("/a", ⟨7, none, none, 0, 0⟩)], none⟩).commands =
      lookupKey "/a" (⟨[("/a", ⟨7, none, none, 0, 0⟩)], none⟩ : UsageData).commands) ∧
    ∃ d, lookupKey "/b" (update_command_usage "t" "/b" true
        ⟨[("/a", ⟨7, none, none, 0, 0⟩)], none⟩).commands = some d ∧
      d.invocations = 1 := by
  have h := update_command_usage_frame "t" "/b" true
    ⟨[("/a", ⟨7, none, none, 0, 0⟩)], none⟩
  refine ⟨h.1 "/a" (by decide), ?_⟩
  obtain ⟨d, hd, hi⟩ := h.2
  exact ⟨d, hd, by simpa [lookupKey] using hi⟩

theorem round2_one : round2 1 = 1 :=
  @round2_eq_self 1 100 (by norm_num)

/-- Invariant for the recording recurrence: an entity already stored with
rate `r` evolves by `rate_step`, one call per outcome. -/
theorem record_outcomes_invariant {now command : String} :
    ∀ (outcomes : List Bool) (data : UsageData) (d : CmdData) (r : ℚ),
      lookupKey command data.commands = some d →
      d.avgSuccessRate = some r →
      ∃ d2, lookupKey command (record_outcomes now command outcomes data).commands = some d2 ∧
        d2.invocations = d.invocations + outcomes.length ∧
        d2.avgSuccessRate = some (rates_from r d.invocations outcomes) := by
  intro outcomes
  induction outcomes with
  | nil =>
    intro data d r h hr
    exact ⟨d, by simpa [record_outcomes] using h, by simp, by simp [rates_from, hr]⟩
  | cons s rest ih =>
    intro data d r h hr
    have h1 := update_lookup_present now s h
    have hinv : (updateEntry now s d).invocations = d.invocations + 1 := rfl
    have hrate : (updateEntry now s d).avgSuccessRate =
        some (rate_step r d.invocations s) := by
      unfold updateEntry rate_step
      simp only [hr, Option.getD_some]
      congr 2
      push_cast
      ring
    obtain ⟨d2, hl2, hi2, hr2⟩ := ih (update_command_usage now command s data)
      (updateEntry now s d) (rate_step r d.invocations s) h1 hrate
    refine ⟨d2, by simpa [record_outcomes] using hl2, ?_, ?_⟩
    · rw [hi2, hinv]
      simp only [List.length_cons]
      omega
    · rw [hr2, hinv]
      simp [rates_from]

/-- Claim C2 (amended): a fresh entity is created with `avgSuccessRate`
`0.0`, so the cumulative recurrence runs with seed `0`, not `0.5` — the
`0.5` default in `.get("avgSuccessRate", 0.5)` never applies to entries
created by this function. -/
theorem record_outcomes_fresh_seed_zero (now command : String)
    (outcomes : List Bool) (data : UsageData)
    (hfresh : lookupKey command data.commands = none) (hne : outcomes ≠ []) :
    ∃ d, lookupKey command (record_outcomes now command outcomes data).commands = some d ∧
      d.invocations = outcomes.length ∧
      d.avgSuccessRate = some (rates_from 0 0 outcomes) := by
  cases outcomes with
  | nil => exact absurd rfl hne
  | cons s rest =>
    have h1 := update_lookup_absent now s hfresh
    have hrate : (updateEntry now s freshCmd).avgSuccessRate =
        some (rate_step 0 0 s) := by
      unfold updateEntry rate_step freshCmd
      simp only [Option.getD_some]
      congr 2
      push_cast
      ring
    have hinv1 : (updateEntry now s freshCmd).invocations = 1 := rfl
    obtain ⟨d2, hl2, hi2, hr2⟩ := record_outcomes_invariant rest
      (update_command_usage now command s data) (updateEntry now s freshCmd)
      (rate_step 0 0 s) h1 hrate
    refine ⟨d2, by simpa [record_outcomes] using hl2, ?_, ?_⟩
    · rw [hi2, hinv1]
      simp only [List.length_cons]
      omega
    · rw [hr2, hinv1]
      simp [rates_from]

/-- Witness for the amended C2: two successes on a fresh entity store two
invocations at the seed-0 recurrence value, which evaluates to `1`. -/
theorem record_outcomes_fresh_seed_zero_witness :
    (∃ d, lookupKey "/x" (record_outcomes "t" "/x" [true, true]
        ⟨[], none⟩).commands = some d ∧
      d.invocations = 2 ∧
      d.avgSuccessRate = some (rates_from 0 0 [true, true])) ∧
    rates_from 0 0 [true, true] = 1 := by
  have hstep1 : rate_step 0 0 true = 1 := by
    unfold rate_step
    have harg : (((0:ℚ) * ((0:ℕ) : ℚ)) + (if true then (1:ℚ) else 0)) / (((0:ℕ) : ℚ) + 1) = 1 := by
      norm_num
    rw [harg, round2_one]
  have hstep2 : rate_step 1 1 true = 1 := by
    unfold rate_step
    have harg : (((1:ℚ) * ((1:ℕ) : ℚ)) + (if true then (1:ℚ) else 0)) / (((1:ℕ) : ℚ) + 1) = 1 := by
      norm_num
    rw [harg, round2_one]
  have hrates : rates_from 0 0 [true, true] = 1 := by
    show rates_from (rate_step 0 0 true) 1 [true] = 1
    rw [hstep1]
    show rates_from (rate_step 1 1 true) 2 [] = 1
    rw [hstep2]
    rfl
  exact ⟨record_outcomes_fresh_seed_zero "t" "/x" [true, true] ⟨[], none⟩ rfl
    (by simp), hrates⟩

/-- Claim C2 counterexample: on a fresh entity a single successful outcome
stores `avgSuccessRate = 1.0`, while the claimed formula
`(0.5 + 1)/(1 + 1)` gives `0.75` (already exact at two decimals) — the
`0.5` seed is not reproduced. -/
theorem update_fresh_rate_counterexample :
    (∃ d, lookupKey "/x" (update_command_usage "t" "/x" true
        ⟨[], none⟩).commands = some d ∧ d.avgSuccessRate = some 1) ∧
    round2 ((1/2 + 1) / (1 + 1)) = 3/4 ∧ (1 : ℚ) ≠ 3/4 := by
  refine ⟨?_, ?_, by norm_num⟩
  · have h := @update_lookup_absent "/x" ⟨[], none⟩ "t" true rfl
    refine ⟨updateEntry "t" true freshCmd, h, ?_⟩
    unfold updateEntry freshCmd
    simp only [Option.getD_some]
    norm_num [round2_one]
  · have harg : ((1:ℚ)/2 + 1) / (1 + 1) = 3/4 := by norm_num
    rw [harg]
    exact @round2_eq_self (3/4) 75 (by norm_num)

/-- Numeric rank of a recommendation priority tier. -/
def priorityRank : String → ℕ
  | "high" => 2
  | "medium" => 1
  | _ => 0

/-- A recommendation list ordered by descending priority. -/
def priority_sorted (l : List Recommendation) : Prop :=
  l.Pairwise (fun a b => priorityRank b.priority ≤ priorityRank a.priority)

/-- Claim C7 (amended): a run's recommendations are emitted in fixed
generation order by signal type — cleanup (low), then consolidation
(medium), then adoption (high), then promotion (medium) — and are never
sorted by priority. -/
theorem analyze_command_usage_block_order (commands : List (String × CmdData)) :
    ∃ l1 l2 l3 l4,
      analyze_command_usage commands = l1 ++ l2 ++ l3 ++ l4 ∧
      (∀ r ∈ l1, r.priority = "low" ∧ r.category = "cleanup") ∧
      (∀ r ∈ l2, r.priority = "medium" ∧ r.category = "consolidation") ∧
      (∀ r ∈ l3, r.priority = "high" ∧ r.category = "adoption") ∧
      (∀ r ∈ l4, r.priority = "medium" ∧ r.category = "promotion") := by
  refine ⟨cleanup_recs (analyze_usage_patterns commands),
          consolidation_recs (analyze_usage_patterns commands),
          adoption_recs commands, promotion_recs commands, rfl, ?_, ?_, ?_, ?_⟩
  · intro r hr
    unfold cleanup_recs at hr
    split at hr
    · simp at hr
    · simp only [List.mem_singleton] at hr
      subst hr
      exact ⟨rfl, rfl⟩
  · intro r hr
    obtain ⟨c, _, rfl⟩ := List.mem_map.mp hr
    exact ⟨rfl, rfl⟩
  · intro r hr
    unfold adoption_recs at hr
    rcases heq : lookupKey "/route" commands with _ | d
    · rw [heq] at hr
      simp at hr
    · rw [heq] at hr
      simp only at hr
      split at hr
      · split at hr
        · simp only [List.mem_singleton] at hr
          subst hr
          exact ⟨rfl, rfl⟩
        · simp at hr
      · simp at hr
  · intro r hr
    obtain ⟨c, _, rfl⟩ := List.mem_map.mp hr
    exact ⟨rfl, rfl⟩

/-- The usage snapshot refuting C7: `/a` never used (a low-priority
cleanup signal, generated first) and `/route` with ignored advice (a
high-priority adoption signal, generated later). -/
def c7data : List (String × CmdData) :=
  [("/a", ⟨0, none, none, 0, 0⟩), ("/route", ⟨1, none, none, 1, 0⟩)]

theorem c7_insights :
    analyze_usage_patterns c7data = ⟨["/route"], ["/a"], []⟩ := rfl

theorem c7_adoption : adoption_recs c7data =
    [⟨"high", "adoption",
      "/route recommendations only followed a fraction of the time",
      "Improve specificity of routing advice or reduce noise", []⟩] := by
  have hroute : lookupKey "/route" c7data = some ⟨1, none, none, 1, 0⟩ := rfl
  unfold adoption_recs
  rw [hroute]
  norm_num

theorem c7_promotion : promotion_recs c7data = [] := by
  unfold promotion_recs
  rw [List.map_eq_nil_iff, List.filter_eq_nil_iff]
  intro c hc
  unfold c7data at hc
  simp only [List.mem_cons, List.mem_singleton] at hc
  rcases hc with rfl | rfl | h
  · norm_num
  · norm_num
  · simp at h

/-- Claim C7 counterexample: on `c7data` the produced list is
`[low, high]` — a low-priority recommendation precedes a high-priority
one, so the output is not ordered by descending priority. -/
theorem analyze_command_usage_not_priority_sorted :
    (analyze_command_usage c7data).map Recommendation.priority = ["low", "high"] ∧
    ¬ priority_sorted (analyze_command_usage c7data) := by
  have hval : analyze_command_usage c7data =
      [⟨"low", "cleanup", "1 commands never used in 30 days",
        "Review for deprecation or better promotion", ["/a"]⟩,
       ⟨"high", "adoption",
        "/route recommendations only followed a fraction of the time",
        "Improve specificity of routing advice or reduce noise", []⟩] := by
    unfold analyze_command_usage generate_recommendations
    rw [c7_insights, c7_adoption, c7_promotion]
    rfl
  rw [hval]
  constructor
  · rfl
  · intro hs
    unfold priority_sorted at hs
    rw [List.pairwise_cons] at hs
    have h2 := hs.1 _ (List.mem_singleton_self _)
    have h3 : ¬ (priorityRank "high" ≤ priorityRank "low") := by decide
    exact h3 h2

/-- The usage snapshot of the C8 example: two never-used commands and two
low-usage `/local-*` commands. -/
def c8data : List (String × CmdData) :=
  [("/a", ⟨0, none, none, 0, 0⟩), ("/b", ⟨0, none, none, 0, 0⟩),
   ("/local-x", ⟨3, none, none, 0, 0⟩), ("/local-y", ⟨2, none, none, 0, 0⟩)]

/-- Claim C8: on the example snapshot, `leastUsed` is exactly the
zero-invocation commands `["/a", "/b"]`, `mostUsed` is the positive-count
commands by descending invocations, and the one redundancy cluster is the
`/local-*` family `["/local-x", "/local-y"]`. -/
theorem analyze_usage_patterns_example :
    (analyze_usage_patterns c8data).leastUsedCommands = ["/a", "/b"] ∧
    (analyze_usage_patterns c8data).mostUsedCommands = ["/local-x", "/local-y"] ∧
    (analyze_usage_patterns c8data).redundantCommands.map Cluster.commands =
      [["/local-x", "/local-y"]] :=
  ⟨rfl, rfl, rfl⟩

end CommandUsage

namespace Subagent

/-- Per-task-type stats stored under `taskTypes` in
`subagent-effectiveness.json`. -/
structure TaskTypeStat where
  attempted : ℕ
  succeeded : ℕ
  firstPassRate : ℚ

/-- One per-model record of `subagent-effectiveness.json`.  Keys read with
default `0`/`0.0` (`tasksAttempted`, `firstPassRate`) are plain fields; a
missing `avgTokensUsed` key defaults to `float("inf")` in the source, so
its absence is observable and it is an `Option`. -/
structure SubModel where
  tasksAttempted : ℕ
  tasksSucceeded : ℕ
  firstPassRate : ℚ
  avgTokensUsed : Option ℚ
  taskTypes : List (String × TaskTypeStat)

/-- The best-model scan of `generate_recommendations` in
`analyze-subagent-effectiveness.py` for one task type: iterate the models,
keeping the first model whose rate strictly beats the best so far
(starting from `0.0`), considering only models whose `taskTypes` contain
the task type. -/
def bestForLoop (t : String) :
    List (String × SubModel) → ℚ → Option String → Option String
  | [], _, best => best
  | (name, md) :: rest, best_rate, best =>
    match lookupKey t md.taskTypes with
    | some st =>
      if best_rate < st.firstPassRate then
        bestForLoop t rest st.firstPassRate (some name)
      else bestForLoop t rest best_rate best
    | none => bestForLoop t rest best_rate best

/-- The winner of the best-model scan for one task type; `none` means no
`bestFor_<taskType>` entry is emitted. -/
def bestFor (models : List (String × SubModel)) (t : String) : Option String :=
  bestForLoop t models 0 none

/-- The set of task types attempted by any model (Python iterates a `set`
whose order is unspecified; first-seen order with duplicates removed is
one concrete realisation). -/
def task_types_union (models : List (String × SubModel)) : List String :=
  (models.foldl (fun acc p => acc ++ (p.2.taskTypes.map Prod.fst)) []).dedup

/-- The `bestFor_<taskType>` entries of the comparison metrics: one entry
per task type whose scan produced a winner. -/
def bestFor_entries (models : List (String × SubModel)) : List (String × String) :=
  (task_types_union models).filterMap
    (fun t => (bestFor models t).map (fun m => ("bestFor_" ++ t, m)))

/-- The token-efficiency condition: `0 < avg < min_tokens` (with
`min_tokens` starting at infinity, modelled by `none`) and at least one
attempted task. -/
def mteCond (a : ℚ) (min_tokens : Option ℚ) (attempted : ℕ) : Bool :=
  decide (0 < a) &&
    (match min_tokens with | none => true | some m => decide (a < m)) &&
    decide (0 < attempted)

/-- The most-token-efficient scan; a model with a missing `avgTokensUsed`
key reads as infinity and is never selected. -/
def mteLoop : List (String × SubModel) → Option ℚ → Option String → Option String
  | [], _, best => best
  | (name, md) :: rest, min_tokens, best =>
    match md.avgTokensUsed with
    | none => mteLoop rest min_tokens best
    | some a =>
      if mteCond a min_tokens md.tasksAttempted then mteLoop rest (some a) (some name)
      else mteLoop rest min_tokens best

def mostTokenEfficient (models : List (String × SubModel)) : String :=
  (mteLoop models none none).getD "insufficient_data"

/-- The highest-overall-quality scan: strictly better `firstPassRate`
than the best so far (starting from `0.0`), gated on more than 5
attempted tasks. -/
def hqLoop : List (String × SubModel) → ℚ → Option String → Option String
  | [], _, best => best
  | (name, md) :: rest, best_quality, best =>
    if best_quality < md.firstPassRate ∧ 5 < md.tasksAttempted then
      hqLoop rest md.firstPassRate (some name)
    else hqLoop rest best_quality best

/-- `recommendations["highestQuality"]`: the scan winner or the
`insufficient_data` sentinel. -/
def highestQuality (models : List (String × SubModel)) : String :=
  (hqLoop models 0 none).getD "insufficient_data"

/-- Embedding of `generate_recommendations` of
`analyze-subagent-effectiveness.py`: the comparison-metrics mapping as an
entry list. -/
def generate_recommendations (models : List (String × SubModel)) :
    List (String × String) :=
  bestFor_entries models ++
    [("mostTokenEfficient", mostTokenEfficient models),
     ("highestQuality", highestQuality models)]

theorem hqLoop_sound {m : String} :
    ∀ (models : List (String × SubModel)) (bq : ℚ) (best : Option String),
      hqLoop models bq best = some m →
      best = some m ∨ ∃ d, (m, d) ∈ models ∧ 5 < d.tasksAttempted := by
  intro models
  induction models with
  | nil => intro bq best h; exact Or.inl h
  | cons p rest ih =>
    intro bq best h
    rcases p with ⟨name, md⟩
    rw [hqLoop] at h
    split at h
    · rename_i hcond
      rcases ih md.firstPassRate (some name) h with h2 | ⟨d, hd, h5⟩
      · injection h2 with h2
        exact Or.inr ⟨md, by simp [h2], hcond.2⟩
      · exact Or.inr ⟨d, by simp [hd], h5⟩
    · rcases ih bq best h with h2 | ⟨d, hd, h5⟩
      · exact Or.inl h2
      · exact Or.inr ⟨d, by simp [hd], h5⟩

theorem hqLoop_all_gated :
    ∀ (models : List (String × SubModel)) (bq : ℚ) (best : Option String),
      (∀ p ∈ models, p.2.tasksAttempted ≤ 5) →
      hqLoop models bq best = best := by
  intro models
  induction models with
  | nil => intro bq best _; rfl
  | cons p rest ih =>
    intro bq best hall
    rcases p with ⟨name, md⟩
    rw [hqLoop, if_neg, ih bq best (fun q hq => hall q (by simp [hq]))]
    intro hcond
    exact absurd hcond.2 (not_lt.mpr (hall (name, md) (by simp)))

/-- Claim C6: the highest-quality scan never selects a model with at most
5 attempted tasks, and when every model is at or below the gate the
result is exactly the `insufficient_data` sentinel. -/
theorem highestQuality_gate (models : List (String × SubModel)) :
    (∀ m, hqLoop models 0 none = some m →
      ∃ d, (m, d) ∈ models ∧ 5 < d.tasksAttempted) ∧
    ((∀ p ∈ models, p.2.tasksAttempted ≤ 5) →
      highestQuality models = "insufficient_data") := by
  constructor
  · intro m h
    rcases hqLoop_sound models 0 none h with h2 | h2
    · exact absurd h2 (by simp)
    · exact h2
  · intro hall
    unfold highestQuality
    rw [hqLoop_all_gated models 0 none hall]
    rfl

/-- Witness for C6: a single model with 3 attempted tasks yields the
sentinel. -/
theorem highestQuality_gate_witness :
    highestQuality [("deepseek", ⟨3, 3, 1, none, []⟩)] = "insufficient_data" :=
  (highestQuality_gate [("deepseek", ⟨3, 3, 1, none, []⟩)]).2
    (by
      intro p hp
      simp only [List.mem_singleton] at hp
      subst hp
      decide)

theorem bestForLoop_all_zero {t : String} :
    ∀ (models : List (String × SubModel)) (bq : ℚ) (best : Option String),
      0 ≤ bq →
      (∀ p ∈ models, ∀ st, lookupKey t p.2.taskTypes = some st →
        st.firstPassRate = 0) →
      bestForLoop t models bq best = best := by
  intro models
  induction models with
  | nil => intro bq best _ _; rfl
  | cons p rest ih =>
    intro bq best hbq hall
    rcases p with ⟨name, md⟩
    rw [bestForLoop]
    split
    · rename_i st heq
      have hrate : st.firstPassRate = 0 := hall (name, md) (by simp) st heq
      rw [if_neg (by rw [hrate]; exact not_lt.mpr hbq)]
      exact ih bq best hbq (fun q hq => hall q (by simp [hq]))
    · exact ih bq best hbq (fun q hq => hall q (by simp [hq]))

theorem append_left_cancel_str {s t u : String} (h : s ++ t = s ++ u) : t = u := by
  have h2 := congrArg String.data h
  simp only [String.data_append] at h2
  exact String.ext (List.append_cancel_left h2)

theorem bestFor_key_ne_mte (t : String) :
    ("bestFor_" ++ t) ≠ "mostTokenEfficient" := by
  intro h
  have h2 := congrArg String.data h
  simp [String.data_append] at h2

theorem bestFor_key_ne_hq (t : String) :
    ("bestFor_" ++ t) ≠ "highestQuality" := by
  intro h
  have h2 := congrArg String.data h
  simp [String.data_append] at h2

/-- Claim C9: when every model that attempted a task type has
`firstPassRate` `0.0`, the best-model scan finds no winner and the
comparison metrics contain no `bestFor_<taskType>` entry at all — so a
model with zero recorded successes on a task type is never named best for
it, even when it is the only model that attempted it. -/
theorem bestFor_all_zero_no_entry (models : List (String × SubModel)) (t : String)
    (hzero : ∀ p ∈ models, ∀ st, lookupKey t p.2.taskTypes = some st →
      st.firstPassRate = 0) :
    bestFor models t = none ∧
    ∀ kv ∈ generate_recommendations models, kv.1 ≠ "bestFor_" ++ t := by
  have hnone : bestFor models t = none :=
    bestForLoop_all_zero models 0 none le_rfl hzero
  refine ⟨hnone, ?_⟩
  intro kv hkv
  unfold generate_recommendations at hkv
  rcases List.mem_append.mp hkv with hkv1 | hkv2
  · obtain ⟨u, _, hmap⟩ := List.mem_filterMap.mp hkv1
    rw [Option.map_eq_some'] at hmap
    obtain ⟨m, hbu, hkv⟩ := hmap
    intro hkey
    rw [← hkv] at hkey
    have hut : u = t := append_left_cancel_str hkey
    rw [hut, hnone] at hbu
    exact Option.noConfusion hbu
  · simp only [List.mem_cons, List.mem_singleton] at hkv2
    rcases hkv2 with rfl | rfl | h
    · exact fun h => bestFor_key_ne_mte t h.symm
    · exact fun h => bestFor_key_ne_hq t h.symm
    · simp at h

/-- Witness for C9: one model that attempted task type `refactor` twice
with no successes (rate `0.0`) — no winner is found. -/
theorem bestFor_all_zero_no_entry_witness :
    bestFor [("qwen", ⟨2, 0, 0, none, [("refactor", ⟨2, 0, 0⟩)]⟩)] "refactor" = none :=
  (bestFor_all_zero_no_entry [("qwen", ⟨2, 0, 0, none, [("refactor", ⟨2, 0, 0⟩)]⟩)]
    "refactor"
    (by
      intro p hp st hst
      simp only [List.mem_singleton] at hp
      subst hp
      simp only [lookupKey, if_pos rfl] at hst
      rw [← Option.some.inj hst])).1

end Subagent

end ProcessMetrics
